import Mathlib

/-!
Verification of the advanced-vector container (`advanced-vector/vector.h`).

The code is shallowly embedded as follows.

A raw buffer (the `RawMemory<T>` member `buffer_` together with its
`capacity_`) is a `List (Option α)` whose length is the capacity; a slot
holding `some a` contains a live (constructed) element `a`, while `none`
is uninitialized memory.  Placement-new writes `some x` into a slot,
`std::destroy_*` writes `none`.  `Allocate n` yields `List.replicate n none`.

A `Vector<T>` is the pair of its `RawMemory` buffer and its `size_` field.
Member functions are translated one by one; migration by
`std::uninitialized_move_n` and by `std::uninitialized_copy_n` transfer the
same element values (a moved-from original is destroyed immediately
afterwards in every call site), so the pure definitions use a single slot
copy.  The exception behaviour of the copy path is modelled separately by
instrumented definitions (suffix `E`) in which copying an element may
throw; those return either the final vector or a `Thrown` record listing
the state after unwinding, the elements destroyed during unwinding, the
elements constructed by the call whose destructor never ran, and whether a
buffer allocated by the call was leaked.
-/

set_option autoImplicit false

namespace AdvVec

variable {α : Type}

/-- Reading slot `i` of a raw buffer (`buffer_[i]`); out of range reads give
`none`, which never happens in the translated call sites. -/
def slotGet (buf : List (Option α)) (i : ℕ) : Option α :=
  buf.getD i none

/-- Rewrite every slot of a buffer as a function of its index and old
content; the index-aware map underlying the slot-range algorithms below. -/
def mapFrom (f : ℕ → Option α → Option α) : ℕ → List (Option α) → List (Option α)
  | _, [] => []
  | j, y :: ys => f j y :: mapFrom f (j + 1) ys

/-- Models the slot effect of `std::uninitialized_copy_n` /
`std::uninitialized_move_n` / `std::copy_n` / `std::move` /
`std::move_backward`: destination slots `[d, d + n)` receive the values of
source slots `[s, s + n)`; the source buffer is read as it was before the
call, which matches the overlap guarantees of the forward and backward
algorithms at the translated call sites. -/
def copySlots (src : List (Option α)) (s n : ℕ) (dst : List (Option α)) (d : ℕ) :
    List (Option α) :=
  mapFrom (fun j y => if d ≤ j ∧ j < d + n then slotGet src (s + (j - d)) else y) 0 dst

/-- Models `std::destroy_n buf (s + ·)` on slots `[s, s + n)`: each destroyed
slot becomes uninitialized. -/
def destroySlots (buf : List (Option α)) (s n : ℕ) : List (Option α) :=
  mapFrom (fun j y => if s ≤ j ∧ j < s + n then none else y) 0 buf

/-- Models `std::uninitialized_value_construct_n` and
`std::uninitialized_default_construct_n` on slots `[s, s + n)`: each slot
receives a value-constructed element (`default`). -/
def defaultFill [Inhabited α] (buf : List (Option α)) (s n : ℕ) : List (Option α) :=
  mapFrom (fun j y => if s ≤ j ∧ j < s + n then some default else y) 0 buf

/-- `Vector<T>`: the `RawMemory` buffer `data_` (its length is
`data_.Capacity()`) and the live-element count `size_`. -/
structure Vector (α : Type) where
  data_ : List (Option α)
  size_ : ℕ
  deriving DecidableEq

namespace Vector

/-- `Vector::Capacity()` (`data_.Capacity()`). -/
def Capacity (v : Vector α) : ℕ := v.data_.length

/-- `Vector::Size()`. -/
def Size (v : Vector α) : ℕ := v.size_

/-- `Vector()`: default construction, no allocation. -/
def mkEmpty : Vector α := ⟨[], 0⟩

/-- `Vector(size_t size)`: allocate `size` slots and value-construct `size`
elements at the start of the buffer. -/
def mkSized [Inhabited α] (size : ℕ) : Vector α :=
  ⟨defaultFill (List.replicate size none) 0 size, size⟩

/-- `Vector(const Vector&)`: allocate `other.size_` slots, then
`uninitialized_copy_n(other.begin(), other.size_, begin())`. -/
def copyCtor (other : Vector α) : Vector α :=
  ⟨copySlots other.data_ 0 other.size_ (List.replicate other.size_ none) 0, other.size_⟩

/-- `Vector::Swap`: exchanges `data_` (a `RawMemory::Swap`) and `size_`.
Returns the pair (this, other) after the call. -/
def Swap (v other : Vector α) : Vector α × Vector α :=
  (⟨other.data_, other.size_⟩, ⟨v.data_, v.size_⟩)

/-- `Vector(Vector&& other)`: member-default-initialize, then `Swap(other)`.
Returns the pair (constructed vector, other after the call). -/
def moveCtor (other : Vector α) : Vector α × Vector α :=
  Swap mkEmpty other

/-- `Vector::operator=(Vector&& rhs)`: `Swap(rhs)`.  Returns the pair
(this, rhs) after the call. -/
def moveAssign (v rhs : Vector α) : Vector α × Vector α :=
  Swap v rhs

/-- `Vector::operator=(const Vector& rhs)`.  The `this != &rhs` address
check is the `same` flag (`same = true` means `this` and `rhs` are the same
object, in which case the body is skipped). -/
def copyAssign (v rhs : Vector α) (same : Bool) : Vector α :=
  if same then v
  else if v.data_.length < rhs.size_ then
    -- rhs.size_ > data_.Capacity(): copy-construct a temporary, swap it in
    copyCtor rhs
  else if rhs.size_ < v.size_ then
    -- copy_n over the prefix, destroy the surplus trailing elements
    ⟨destroySlots (copySlots rhs.data_ 0 rhs.size_ v.data_ 0) rhs.size_ (v.size_ - rhs.size_),
      rhs.size_⟩
  else
    -- copy_n over the existing prefix, uninitialized_copy_n the new tail
    ⟨copySlots rhs.data_ v.size_ (rhs.size_ - v.size_)
        (copySlots rhs.data_ 0 v.size_ v.data_ 0) v.size_,
      rhs.size_⟩

/-- `Vector::Reserve`: no-op when `capacity <= data_.Capacity()`; otherwise
allocate exactly `capacity` slots, migrate the `size_` live elements
(move or copy; same slot values either way), destroy the originals and
swap the buffers (the old buffer is then released). -/
def Reserve (v : Vector α) (capacity : ℕ) : Vector α :=
  if capacity ≤ v.data_.length then v
  else ⟨copySlots v.data_ 0 v.size_ (List.replicate capacity none) 0, v.size_⟩

/-- The condition of the `if constexpr` migration choice in `Reserve`,
`EmplaceBack` and `Emplace`: migrate by move when the element type is
nothrow-move-constructible or is not copy-constructible, otherwise copy. -/
def migrateByMove (nothrowMoveCtor copyCtorAvailable : Bool) : Bool :=
  nothrowMoveCtor || !copyCtorAvailable

/-- `Vector::Resize`: destroy the trailing elements when shrinking; reserve
and value-construct the new trailing elements when growing. -/
def Resize [Inhabited α] (v : Vector α) (new_size : ℕ) : Vector α :=
  if new_size = v.size_ then v
  else if new_size < v.size_ then
    ⟨destroySlots v.data_ new_size (v.size_ - new_size), new_size⟩
  else
    ⟨defaultFill (Reserve v new_size).data_ v.size_ (new_size - v.size_), new_size⟩

/-- `Vector::EmplaceBack` (success path; the element is the value `x`).
When full: allocate `size_ == 0 ? 1 : size_ * 2` slots, construct `x` at
slot `size_` of the new buffer, migrate the old elements to slots
`[0, size_)`, swap, destroy the originals (released with the old buffer). -/
def EmplaceBack (v : Vector α) (x : α) : Vector α :=
  if v.size_ = v.data_.length then
    ⟨copySlots v.data_ 0 v.size_
        ((List.replicate (if v.size_ = 0 then 1 else v.size_ * 2) (none : Option α)).set
          v.size_ (some x)) 0,
      v.size_ + 1⟩
  else
    ⟨v.data_.set v.size_ (some x), v.size_ + 1⟩

/-- `Vector::PushBack` (both overloads): forwards to `EmplaceBack`. -/
def PushBack (v : Vector α) (x : α) : Vector α := EmplaceBack v x

/-- `Vector::PopBack`: `destroy_at(end() - 1)`, decrement `size_`. -/
def PopBack (v : Vector α) : Vector α :=
  ⟨v.data_.set (v.size_ - 1) none, v.size_ - 1⟩

/-- `Vector::Emplace` at index `pos` (success path; the element is the
value `x`).  At the end it forwards to `EmplaceBack`.  When full it builds
a doubled buffer: the new element at slot `pos`, the old prefix at
`[0, pos)`, the old suffix shifted up to `[pos + 1, size_ + 1)`.  Otherwise
it constructs slot `size_` from slot `size_ - 1`, shifts `[pos, size_ - 1)`
up by one with `move_backward`, and assigns `x` into slot `pos`. -/
def Emplace (v : Vector α) (pos : ℕ) (x : α) : Vector α :=
  if pos = v.size_ then EmplaceBack v x
  else if v.size_ = v.data_.length then
    ⟨copySlots v.data_ pos (v.size_ - pos)
        (copySlots v.data_ 0 pos
          ((List.replicate (if v.size_ = 0 then 1 else v.size_ * 2) (none : Option α)).set
            pos (some x)) 0)
        (pos + 1),
      v.size_ + 1⟩
  else
    ⟨(copySlots v.data_ pos (v.size_ - 1 - pos)
          (v.data_.set v.size_ (slotGet v.data_ (v.size_ - 1))) (pos + 1)).set
        pos (some x),
      v.size_ + 1⟩

/-- `Vector::Insert` (both overloads): forwards to `Emplace`. -/
def Insert (v : Vector α) (pos : ℕ) (x : α) : Vector α := Emplace v pos x

/-- `Vector::Erase` at index `pos`: the last element is popped; otherwise
shift `[pos + 1, size_)` down by one with `std::move`, destroy the vacated
last slot, decrement `size_`. -/
def Erase (v : Vector α) (pos : ℕ) : Vector α :=
  if pos = v.size_ - 1 then PopBack v
  else
    ⟨(copySlots v.data_ (pos + 1) (v.size_ - 1 - pos) v.data_ pos).set (v.size_ - 1) none,
      v.size_ - 1⟩

end Vector

/-- The live elements of a vector, in order: the values held by slots
`[0, size_)`. -/
def liveVals (v : Vector α) : List α :=
  (v.data_.take v.size_).reduceOption

/-- The canonical buffer of a well-formed vector: live elements first, then
`k` uninitialized slots. -/
def canon (es : List α) (k : ℕ) : List (Option α) :=
  es.map some ++ List.replicate k none

/-- A vector whose buffer is canonical for the element list `es`: slots
`[0, es.length)` hold `es` in order and the remaining slots are
uninitialized, with `size_ = es.length`. -/
def Shaped (v : Vector α) (es : List α) : Prop :=
  ∃ k, v.data_ = canon es k ∧ v.size_ = es.length

/-- The container invariant: `size_` never exceeds the capacity, the slots
at indices `[0, size_)` hold live objects, the slots at `[size_, capacity)`
hold none. -/
def Inv (v : Vector α) : Prop :=
  v.size_ ≤ v.data_.length ∧
    ∀ i, i < v.data_.length → ((slotGet v.data_ i).isSome ↔ i < v.size_)

/-- The vectors reachable by the public operations, applied within their
documented preconditions. -/
inductive Reachable [Inhabited α] : Vector α → Prop
  | mkEmpty : Reachable Vector.mkEmpty
  | mkSized (n : ℕ) : Reachable (Vector.mkSized n)
  | copyCtor {v : Vector α} : Reachable v → Reachable (Vector.copyCtor v)
  | moveCtorFst {v : Vector α} : Reachable v → Reachable (Vector.moveCtor v).1
  | moveCtorSnd {v : Vector α} : Reachable v → Reachable (Vector.moveCtor v).2
  | copyAssign {v rhs : Vector α} (same : Bool) :
      Reachable v → Reachable rhs → Reachable (Vector.copyAssign v rhs same)
  | moveAssignFst {v rhs : Vector α} :
      Reachable v → Reachable rhs → Reachable (Vector.moveAssign v rhs).1
  | moveAssignSnd {v rhs : Vector α} :
      Reachable v → Reachable rhs → Reachable (Vector.moveAssign v rhs).2
  | reserve {v : Vector α} (n : ℕ) : Reachable v → Reachable (Vector.Reserve v n)
  | resize {v : Vector α} (n : ℕ) : Reachable v → Reachable (Vector.Resize v n)
  | pushBack {v : Vector α} (x : α) : Reachable v → Reachable (Vector.PushBack v x)
  | emplaceBack {v : Vector α} (x : α) : Reachable v → Reachable (Vector.EmplaceBack v x)
  | popBack {v : Vector α} : Reachable v → v.size_ ≠ 0 → Reachable (Vector.PopBack v)
  | emplace {v : Vector α} (pos : ℕ) (x : α) :
      Reachable v → pos ≤ v.size_ → Reachable (Vector.Emplace v pos x)
  | insert {v : Vector α} (pos : ℕ) (x : α) :
      Reachable v → pos ≤ v.size_ → Reachable (Vector.Insert v pos x)
  | erase {v : Vector α} (pos : ℕ) :
      Reachable v → pos < v.size_ → Reachable (Vector.Erase v pos)
  | swapFst {a b : Vector α} : Reachable a → Reachable b → Reachable (Vector.Swap a b).1
  | swapSnd {a b : Vector α} : Reachable a → Reachable b → Reachable (Vector.Swap a b).2

/-- Appending every element of `l` with `PushBack`, left to right. -/
def pushAll (v : Vector α) (l : List α) : Vector α :=
  l.foldl Vector.PushBack v

/-- Appending every element of `l` to a default-constructed vector. -/
def pushList (l : List α) : Vector α :=
  pushAll Vector.mkEmpty l

/-- Follows the spec's words (growth policy): the smallest value reachable
by repeated doubling starting from 1 that is at least `n` — that is, the
least power of two `≥ n` — and `0` when `n = 0`. -/
def specSmallestDoubling (n : ℕ) : ℕ :=
  if n = 0 then 0 else 2 ^ Nat.clog 2 n

/-- Outcome of an operation that threw, after unwinding: the state of the
vector operated on, the elements constructed by this call whose destructors
ran during the cleanup, the elements constructed by this call whose
destructors never ran, and whether a buffer allocated by this call was
never released. -/
structure Thrown (α : Type) where
  after : Vector α
  destroyed : List α
  leaked : List α
  storageLeaked : Bool
  deriving DecidableEq

/-- Models `std::uninitialized_copy_n` with a copy constructor that may
throw: source elements are copied one at a time into slots `d, d + 1, ...`
of `dst`; if copying element `a` throws (`bad a`), the algorithm destroys
the copies it already constructed and rethrows.  `.ok` is the filled
buffer; `.error` carries the copies constructed and then destroyed during
the unwinding, in destruction order. -/
def uninitCopyNE (bad : α → Bool) :
    List α → List (Option α) → ℕ → Except (List α) (List (Option α))
  | [], dst, _ => .ok dst
  | a :: rest, dst, d =>
    if bad a then .error []
    else
      match uninitCopyNE bad rest (dst.set d (some a)) (d + 1) with
      | .ok r => .ok r
      | .error destroyed => .error (a :: destroyed)

/-- Models `std::copy_n` with a copy assignment that may throw: overwrites
slots `d, d + 1, ...` one at a time; the first `bad` source element throws,
leaving the overwrites already performed in place.  `.error` carries the
buffer as it stands at the throw. -/
def copyNAssignE (bad : α → Bool) :
    List α → List (Option α) → ℕ → Except (List (Option α)) (List (Option α))
  | [], dst, _ => .ok dst
  | a :: rest, dst, d =>
    if bad a then .error dst
    else copyNAssignE bad rest (dst.set d (some a)) (d + 1)

/-- `Vector::EmplaceBack` on the copy-migration path (the element type is
copy constructible and not nothrow-move constructible), instrumented with
failure: `ctorFails` is the construction of the new element throwing, and
`bad` marks the elements whose copy constructor throws during migration.
On the growth path the new element is constructed at slot `size_` of the
new buffer before any migration; if the migrating copy then throws, its
partial copies are destroyed by the algorithm's rollback and the
`RawMemory` destructor releases the raw new block — nothing destroys the
already-constructed new element, so it leaks. -/
def EmplaceBackE (bad : α → Bool) (ctorFails : Bool) (v : Vector α) (x : α) :
    Except (Thrown α) (Vector α) :=
  if v.size_ = v.data_.length then
    if ctorFails then
      .error ⟨v, [], [], false⟩
    else
      match uninitCopyNE bad (liveVals v)
          ((List.replicate (if v.size_ = 0 then 1 else v.size_ * 2) (none : Option α)).set
            v.size_ (some x)) 0 with
      | .error destroyed => .error ⟨v, destroyed, [x], false⟩
      | .ok nd => .ok ⟨nd, v.size_ + 1⟩
  else
    if ctorFails then .error ⟨v, [], [], false⟩
    else .ok ⟨v.data_.set v.size_ (some x), v.size_ + 1⟩

/-- `Vector::Emplace` on the copy-migration path, instrumented with failure
as in `EmplaceBackE`.  The growth path guards each of the two migrating
copies with a catch block: if the prefix copy throws, the catch destroys
the new element at slot `pos` and rethrows; if the suffix copy throws, the
catch destroys slots `[0, pos + 1)` — the prefix copies and the new
element — and rethrows.  In both cases the partial copies of the throwing
algorithm were already destroyed by its rollback, and the raw new block is
released.  In-place element moves and assignments are modelled as
non-failing. -/
def EmplaceE (bad : α → Bool) (ctorFails : Bool) (v : Vector α) (pos : ℕ) (x : α) :
    Except (Thrown α) (Vector α) :=
  if pos = v.size_ then EmplaceBackE bad ctorFails v x
  else if v.size_ = v.data_.length then
    if ctorFails then .error ⟨v, [], [], false⟩
    else
      match uninitCopyNE bad ((liveVals v).take pos)
          ((List.replicate (if v.size_ = 0 then 1 else v.size_ * 2) (none : Option α)).set
            pos (some x)) 0 with
      | .error destroyedPre => .error ⟨v, destroyedPre ++ [x], [], false⟩
      | .ok nd1 =>
        match uninitCopyNE bad ((liveVals v).drop pos) nd1 (pos + 1) with
        | .error destroyedSuf =>
          .error ⟨v, destroyedSuf ++ (liveVals v).take pos ++ [x], [], false⟩
        | .ok nd2 => .ok ⟨nd2, v.size_ + 1⟩
  else
    if ctorFails then .error ⟨v, [], [], false⟩
    else .ok (Vector.Emplace v pos x)

/-- `Vector(const Vector&)` with throwing copies: on a throw the partial
copies are destroyed by the rollback of `uninitialized_copy_n` and the
member `data_`'s destructor releases the freshly allocated block. -/
def copyCtorE (bad : α → Bool) (other : Vector α) : Except (List α) (Vector α) :=
  match uninitCopyNE bad (liveVals other) (List.replicate other.size_ none) 0 with
  | .error destroyed => .error destroyed
  | .ok buf => .ok ⟨buf, other.size_⟩

/-- `Vector::operator=(const Vector&)` with throwing copies.  On the growth
path (`rhs.size_ > data_.Capacity()`) a full temporary copy is built and
swapped in, so a throw leaves `*this` untouched.  On the in-place paths the
element-wise `copy_n` overwrites stand if a later copy throws. -/
def copyAssignE (bad : α → Bool) (v rhs : Vector α) (same : Bool) :
    Except (Thrown α) (Vector α) :=
  if same then .ok v
  else if v.data_.length < rhs.size_ then
    match copyCtorE bad rhs with
    | .error destroyed => .error ⟨v, destroyed, [], false⟩
    | .ok nv => .ok ⟨nv.data_, nv.size_⟩
  else if rhs.size_ < v.size_ then
    match copyNAssignE bad (liveVals rhs) v.data_ 0 with
    | .error buf => .error ⟨⟨buf, v.size_⟩, [], [], false⟩
    | .ok buf => .ok ⟨destroySlots buf rhs.size_ (v.size_ - rhs.size_), rhs.size_⟩
  else
    match copyNAssignE bad ((liveVals rhs).take v.size_) v.data_ 0 with
    | .error buf => .error ⟨⟨buf, v.size_⟩, [], [], false⟩
    | .ok buf =>
      match uninitCopyNE bad ((liveVals rhs).drop v.size_) buf v.size_ with
      | .error destroyed => .error ⟨⟨buf, v.size_⟩, destroyed, [], false⟩
      | .ok buf2 => .ok ⟨buf2, rhs.size_⟩

@[simp] theorem Vector.mk_data (d : List (Option α)) (s : ℕ) : (Vector.mk d s).data_ = d := rfl

@[simp] theorem Vector.mk_size (d : List (Option α)) (s : ℕ) : (Vector.mk d s).size_ = s := rfl

theorem length_mapFrom (f : ℕ → Option α → Option α) (j : ℕ) (l : List (Option α)) :
    (mapFrom f j l).length = l.length := by
  induction l generalizing j with
  | nil => rfl
  | cons y ys ih => simp [mapFrom, ih]

theorem getElem?_mapFrom (f : ℕ → Option α → Option α) (j : ℕ) (l : List (Option α)) (i : ℕ) :
    (mapFrom f j l)[i]? = (l[i]?).map (f (j + i)) := by
  induction l generalizing j i with
  | nil => simp [mapFrom]
  | cons y ys ih =>
    cases i with
    | zero => simp [mapFrom]
    | succ n =>
      have : j + (n + 1) = (j + 1) + n := by omega
      simp [mapFrom, ih (j + 1) n, this]

theorem slotGet_eq_getElem? (buf : List (Option α)) (i : ℕ) :
    slotGet buf i = (buf[i]?).getD none := by
  simp [slotGet, List.getD_eq_getElem?_getD]

theorem slotGet_mapFrom (f : ℕ → Option α → Option α) (j : ℕ) (l : List (Option α)) (i : ℕ)
    (hi : i < l.length) :
    slotGet (mapFrom f j l) i = f (j + i) (slotGet l i) := by
  rw [slotGet_eq_getElem?, slotGet_eq_getElem?, getElem?_mapFrom, List.getElem?_eq_getElem hi]
  rfl

theorem length_copySlots (src : List (Option α)) (s n : ℕ) (dst : List (Option α)) (d : ℕ) :
    (copySlots src s n dst d).length = dst.length :=
  length_mapFrom _ _ _

theorem length_destroySlots (buf : List (Option α)) (s n : ℕ) :
    (destroySlots buf s n).length = buf.length :=
  length_mapFrom _ _ _

theorem length_defaultFill [Inhabited α] (buf : List (Option α)) (s n : ℕ) :
    (defaultFill buf s n).length = buf.length :=
  length_mapFrom _ _ _

theorem slotGet_copySlots (src : List (Option α)) (s n : ℕ) (dst : List (Option α)) (d i : ℕ)
    (hi : i < dst.length) :
    slotGet (copySlots src s n dst d) i =
      if d ≤ i ∧ i < d + n then slotGet src (s + (i - d)) else slotGet dst i := by
  rw [copySlots, slotGet_mapFrom _ _ _ _ hi, Nat.zero_add]

theorem slotGet_destroySlots (buf : List (Option α)) (s n i : ℕ) (hi : i < buf.length) :
    slotGet (destroySlots buf s n) i =
      if s ≤ i ∧ i < s + n then none else slotGet buf i := by
  rw [destroySlots, slotGet_mapFrom _ _ _ _ hi, Nat.zero_add]

theorem slotGet_defaultFill [Inhabited α] (buf : List (Option α)) (s n i : ℕ)
    (hi : i < buf.length) :
    slotGet (defaultFill buf s n) i =
      if s ≤ i ∧ i < s + n then some default else slotGet buf i := by
  rw [defaultFill, slotGet_mapFrom _ _ _ _ hi, Nat.zero_add]

theorem slotGet_set (l : List (Option α)) (j : ℕ) (a : Option α) (i : ℕ) :
    slotGet (l.set j a) i = if j = i ∧ i < l.length then a else slotGet l i := by
  rw [slotGet_eq_getElem?, slotGet_eq_getElem?, List.getElem?_set]
  by_cases h : j = i
  · subst h
    by_cases hl : j < l.length <;> simp [hl]
    · rw [List.getElem?_eq_none (by omega)]; rfl
  · simp [h]

theorem slotGet_replicate (n i : ℕ) :
    slotGet (List.replicate n (none : Option α)) i = none := by
  rw [slotGet_eq_getElem?, List.getElem?_replicate]
  split_ifs <;> rfl

theorem length_canon (es : List α) (k : ℕ) : (canon es k).length = es.length + k := by
  simp [canon]

theorem getElem?_canon (es : List α) (k i : ℕ) :
    (canon es k)[i]? = if i < es.length + k then some es[i]? else none := by
  rw [canon, List.getElem?_append]
  by_cases h1 : i < es.length
  · rw [if_pos (by simpa using h1), if_pos (by omega), List.getElem?_map,
      List.getElem?_eq_getElem h1]
    rfl
  · rw [if_neg (by simpa using h1), List.getElem?_replicate, List.length_map]
    by_cases h2 : i < es.length + k
    · rw [if_pos (by omega), if_pos h2, List.getElem?_eq_none (by omega)]
    · rw [if_neg (by omega), if_neg h2]

theorem slotGet_canon (es : List α) (k i : ℕ) :
    slotGet (canon es k) i = es[i]? := by
  rw [slotGet_eq_getElem?, getElem?_canon]
  split_ifs with h
  · rfl
  · rw [List.getElem?_eq_none (by omega)]; rfl

theorem canon_ext {l : List (Option α)} {es : List α} {k : ℕ}
    (hlen : l.length = es.length + k)
    (h : ∀ i, i < es.length + k → slotGet l i = es[i]?) : l = canon es k := by
  apply List.ext_getElem?
  intro i
  by_cases hi : i < es.length + k
  · rw [getElem?_canon, if_pos hi, ← h i hi, slotGet_eq_getElem?,
      List.getElem?_eq_getElem (by omega)]
    rfl
  · rw [getElem?_canon, if_neg hi, List.getElem?_eq_none (by omega)]

theorem reduceOption_map_some (es : List α) : (es.map some).reduceOption = es := by
  induction es with
  | nil => rfl
  | cons a t ih => simp [ih]

theorem Shaped.liveVals_eq {v : Vector α} {es : List α} (h : Shaped v es) :
    liveVals v = es := by
  obtain ⟨k, hd, hs⟩ := h
  rw [liveVals, hd, hs, canon, List.take_left' (by simp), reduceOption_map_some]

theorem Shaped.size_eq {v : Vector α} {es : List α} (h : Shaped v es) :
    v.size_ = es.length := h.choose_spec.2

theorem Shaped.size_le_cap {v : Vector α} {es : List α} (h : Shaped v es) :
    v.size_ ≤ v.data_.length := by
  obtain ⟨k, hd, hs⟩ := h
  rw [hd, hs, length_canon]
  omega

theorem shaped_mkEmpty : Shaped (Vector.mkEmpty : Vector α) [] :=
  ⟨0, rfl, rfl⟩

theorem shaped_mkSized [Inhabited α] (n : ℕ) :
    Shaped (Vector.mkSized n) (List.replicate n (default : α)) := by
  refine ⟨0, ?_, by simp [Vector.mkSized]⟩
  apply canon_ext
  · simp [Vector.mkSized, length_defaultFill]
  · intro i hi
    simp only [List.length_replicate, Nat.add_zero] at hi
    simp only [Vector.mkSized]
    rw [slotGet_defaultFill _ _ _ _ (by simpa using hi), if_pos ⟨Nat.zero_le _, by omega⟩,
      List.getElem?_replicate, if_pos hi]

theorem shaped_copyCtor {v : Vector α} {es : List α} (h : Shaped v es) :
    Shaped (Vector.copyCtor v) es := by
  obtain ⟨k, hd, hs⟩ := h
  refine ⟨0, ?_, hs⟩
  simp only [Vector.copyCtor]
  apply canon_ext
  · rw [length_copySlots, List.length_replicate, hs, Nat.add_zero]
  · intro i hi
    rw [Nat.add_zero] at hi
    rw [slotGet_copySlots _ _ _ _ _ _ (by rw [List.length_replicate]; omega),
      if_pos ⟨Nat.zero_le _, by omega⟩, Nat.zero_add, Nat.sub_zero, hd, slotGet_canon]

theorem shaped_Swap_fst {a b : Vector α} {es : List α} (h : Shaped b es) :
    Shaped (Vector.Swap a b).1 es := h

theorem shaped_Swap_snd {a b : Vector α} {es : List α} (h : Shaped a es) :
    Shaped (Vector.Swap a b).2 es := h

theorem shaped_Reserve {v : Vector α} {es : List α} (h : Shaped v es) (n : ℕ) :
    Shaped (Vector.Reserve v n) es := by
  obtain ⟨k, hd, hs⟩ := h
  rw [Vector.Reserve]
  split_ifs with hle
  · exact ⟨k, hd, hs⟩
  · have hcap : v.data_.length = es.length + k := by rw [hd, length_canon]
    refine ⟨n - es.length, ?_, hs⟩
    apply canon_ext
    · rw [length_copySlots, List.length_replicate]
      omega
    · intro i hi
      rw [slotGet_copySlots _ _ _ _ _ _ (by rw [List.length_replicate]; omega)]
      by_cases hlt : i < v.size_
      · rw [if_pos ⟨Nat.zero_le _, by omega⟩, Nat.zero_add, Nat.sub_zero, hd, slotGet_canon]
      · rw [if_neg (by omega), slotGet_replicate, List.getElem?_eq_none (by omega)]

theorem capacity_Reserve (v : Vector α) (n : ℕ) :
    (Vector.Reserve v n).Capacity = if n ≤ v.Capacity then v.Capacity else n := by
  rw [Vector.Reserve, Vector.Capacity, Vector.Capacity]
  split_ifs <;>
    simp [Vector.Capacity, length_copySlots, List.length_replicate]

theorem shaped_EmplaceBack {v : Vector α} {es : List α} (h : Shaped v es) (x : α) :
    Shaped (Vector.EmplaceBack v x) (es ++ [x]) := by
  obtain ⟨k, hd, hs⟩ := h
  have hcap : v.data_.length = es.length + k := by rw [hd, length_canon]
  by_cases hfull : v.size_ = v.data_.length
  · rw [Vector.EmplaceBack, if_pos hfull]
    have hk : k = 0 := by omega
    set nc := (if v.size_ = 0 then 1 else v.size_ * 2) with hnc
    have hnc2 : es.length + 1 ≤ nc := by
      rw [hnc]; split_ifs <;> omega
    refine ⟨nc - (es.length + 1), ?_, by simp [hs]⟩
    simp only [Vector.mk_data]
    apply canon_ext
    · rw [length_copySlots, List.length_set, List.length_replicate, List.length_append,
        List.length_singleton]
      omega
    · intro i hi
      rw [List.length_append, List.length_singleton] at hi
      have hi' : i < nc := by omega
      rw [slotGet_copySlots _ _ _ _ _ _ (by rw [List.length_set, List.length_replicate]; omega)]
      rcases Nat.lt_trichotomy i es.length with h1 | h1 | h1
      · rw [if_pos ⟨Nat.zero_le _, by omega⟩, Nat.zero_add, Nat.sub_zero, hd, slotGet_canon,
          List.getElem?_append, if_pos h1]
      · subst h1
        rw [if_neg (by omega), slotGet_set,
          if_pos ⟨by omega, by rw [List.length_replicate]; omega⟩,
          List.getElem?_concat_length]
      · rw [if_neg (by omega), slotGet_set, if_neg (by omega), slotGet_replicate,
          List.getElem?_eq_none (by rw [List.length_append, List.length_singleton]; omega)]
  · rw [Vector.EmplaceBack, if_neg hfull]
    have hk : 1 ≤ k := by omega
    refine ⟨k - 1, ?_, by simp [hs]⟩
    simp only [Vector.mk_data]
    apply canon_ext
    · rw [List.length_set, List.length_append, List.length_singleton]
      omega
    · intro i hi
      rw [List.length_append, List.length_singleton] at hi
      rw [slotGet_set]
      rcases Nat.lt_trichotomy i es.length with h1 | h1 | h1
      · rw [if_neg (by omega), hd, slotGet_canon, List.getElem?_append, if_pos h1]
      · subst h1
        rw [if_pos ⟨by omega, by omega⟩, List.getElem?_concat_length]
      · rw [if_neg (by omega), hd, slotGet_canon, List.getElem?_eq_none (by omega),
          List.getElem?_eq_none (by rw [List.length_append, List.length_singleton]; omega)]

theorem capacity_EmplaceBack (v : Vector α) (x : α) :
    (Vector.EmplaceBack v x).Capacity =
      if v.size_ = v.Capacity then (if v.size_ = 0 then 1 else v.size_ * 2)
      else v.Capacity := by
  rw [Vector.Capacity, Vector.Capacity, Vector.EmplaceBack]
  split_ifs with h1 h2 <;>
    simp_all [length_copySlots, List.length_set, List.length_replicate]

theorem shaped_PushBack {v : Vector α} {es : List α} (h : Shaped v es) (x : α) :
    Shaped (Vector.PushBack v x) (es ++ [x]) :=
  shaped_EmplaceBack h x

theorem shaped_PopBack {v : Vector α} {es : List α} (h : Shaped v es) :
    Shaped (Vector.PopBack v) (es.take (es.length - 1)) := by
  obtain ⟨k, hd, hs⟩ := h
  have hcap : v.data_.length = es.length + k := by rw [hd, length_canon]
  have hlt : (es.take (es.length - 1)).length = es.length - 1 := by
    rw [List.length_take]; omega
  refine ⟨k + (es.length - (es.length - 1)), ?_, ?_⟩
  · simp only [Vector.PopBack, Vector.mk_data]
    apply canon_ext
    · rw [List.length_set, hlt]
      omega
    · intro i hi
      rw [hlt] at hi
      rw [slotGet_set]
      by_cases h1 : i < es.length - 1
      · rw [if_neg (by omega), hd, slotGet_canon, List.getElem?_take, if_pos h1]
      · rw [List.getElem?_eq_none (by rw [hlt]; omega)]
        by_cases h2 : v.size_ - 1 = i ∧ i < v.data_.length
        · rw [if_pos h2]
        · rw [if_neg h2, hd, slotGet_canon, List.getElem?_eq_none (by omega)]
  · simp only [Vector.PopBack, Vector.mk_size]
    rw [hlt]
    omega

theorem getElem?_insertList (es : List α) (pos : ℕ) (x : α) (hpos : pos ≤ es.length) (i : ℕ) :
    (es.take pos ++ x :: es.drop pos)[i]? =
      if i < pos then es[i]?
      else if i = pos then some x
      else if i < es.length + 1 then es[i - 1]? else none := by
  have htk : (es.take pos).length = pos := by rw [List.length_take]; omega
  rcases Nat.lt_trichotomy i pos with h1 | h1 | h1
  · rw [if_pos h1, List.getElem?_append, if_pos (by omega), List.getElem?_take, if_pos h1]
  · subst h1
    rw [if_neg (by omega), if_pos rfl, List.getElem?_append_right (by omega), htk,
      Nat.sub_self, List.getElem?_cons_zero]
  · rw [if_neg (by omega), if_neg (by omega), List.getElem?_append_right (by omega), htk]
    have h2 : i - pos = (i - pos - 1) + 1 := by omega
    rw [h2, List.getElem?_cons_succ, List.getElem?_drop]
    by_cases h3 : i < es.length + 1
    · rw [if_pos h3]
      have : pos + (i - pos - 1) = i - 1 := by omega
      rw [this]
    · rw [if_neg h3, List.getElem?_eq_none (by omega)]

theorem getElem?_eraseList (es : List α) (pos : ℕ) (hpos : pos < es.length) (i : ℕ) :
    (es.eraseIdx pos)[i]? = if i < pos then es[i]? else es[i + 1]? := by
  have htk : (es.take pos).length = pos := by rw [List.length_take]; omega
  rw [List.eraseIdx_eq_take_drop_succ]
  by_cases h1 : i < pos
  · rw [if_pos h1, List.getElem?_append, if_pos (by omega), List.getElem?_take, if_pos h1]
  · rw [if_neg h1, List.getElem?_append_right (by omega), htk, List.getElem?_drop]
    have : pos + 1 + (i - pos) = i + 1 := by omega
    rw [this]

theorem length_eraseList (es : List α) (pos : ℕ) (hpos : pos < es.length) :
    (es.eraseIdx pos).length = es.length - 1 := by
  rw [List.length_eraseIdx, if_pos hpos]

theorem shaped_moveCtor_fst {v : Vector α} {es : List α} (h : Shaped v es) :
    Shaped (Vector.moveCtor v).1 es := h

theorem shaped_moveCtor_snd (v : Vector α) : Shaped (Vector.moveCtor v).2 [] :=
  ⟨0, rfl, rfl⟩

theorem shaped_moveAssign_fst {v rhs : Vector α} {fs : List α} (h : Shaped rhs fs) :
    Shaped (Vector.moveAssign v rhs).1 fs := h

theorem shaped_moveAssign_snd {v rhs : Vector α} {es : List α} (h : Shaped v es) :
    Shaped (Vector.moveAssign v rhs).2 es := h

theorem shaped_Resize [Inhabited α] {v : Vector α} {es : List α} (h : Shaped v es) (n : ℕ) :
    Shaped (Vector.Resize v n)
      (if n ≤ es.length then es.take n
       else es ++ List.replicate (n - es.length) (default : α)) := by
  obtain ⟨k, hd, hs⟩ := h
  have hcap : v.data_.length = es.length + k := by rw [hd, length_canon]
  by_cases h0 : n = v.size_
  · rw [Vector.Resize, if_pos h0, if_pos (by omega)]
    have : es.take n = es := by rw [h0, hs, List.take_length]
    rw [this]
    exact ⟨k, hd, hs⟩
  · by_cases h1 : n < v.size_
    · rw [Vector.Resize, if_neg h0, if_pos h1, if_pos (by omega)]
      have htk : (es.take n).length = n := by rw [List.length_take]; omega
      refine ⟨k + (es.length - n), ?_, ?_⟩
      · simp only [Vector.mk_data]
        apply canon_ext
        · rw [length_destroySlots, htk]
          omega
        · intro i hi
          rw [htk] at hi
          rw [slotGet_destroySlots _ _ _ _ (by omega)]
          by_cases h2 : n ≤ i ∧ i < n + (v.size_ - n)
          · rw [if_pos h2, List.getElem?_eq_none (by rw [htk]; omega)]
          · rw [if_neg h2, hd, slotGet_canon]
            by_cases h3 : i < n
            · rw [List.getElem?_take, if_pos h3]
            · rw [List.getElem?_eq_none (by omega),
                List.getElem?_eq_none (by rw [htk]; omega)]
      · simp only [Vector.mk_size]
        rw [htk]
    · rw [Vector.Resize, if_neg h0, if_neg h1, if_neg (by omega)]
      obtain ⟨k', hd', hs'⟩ := shaped_Reserve ⟨k, hd, hs⟩ n
      have hcap' : (Vector.Reserve v n).data_.length = es.length + k' := by
        rw [hd', length_canon]
      have hge : n ≤ es.length + k' := by
        have hc := capacity_Reserve v n
        rw [Vector.Capacity, Vector.Capacity, hcap'] at hc
        split_ifs at hc <;> omega
      have hlen' : (es ++ List.replicate (n - es.length) (default : α)).length = n := by
        rw [List.length_append, List.length_replicate]
        omega
      refine ⟨es.length + k' - n, ?_, ?_⟩
      · simp only [Vector.mk_data]
        apply canon_ext
        · rw [length_defaultFill, hcap', hlen']
          omega
        · intro i hi
          rw [hlen'] at hi
          rw [slotGet_defaultFill _ _ _ _ (by rw [hcap']; omega)]
          by_cases h2 : v.size_ ≤ i ∧ i < v.size_ + (n - v.size_)
          · rw [if_pos h2, List.getElem?_append_right (by omega), List.getElem?_replicate,
              if_pos (by omega)]
          · rw [if_neg h2, hd', slotGet_canon]
            by_cases h3 : i < es.length
            · rw [List.getElem?_append, if_pos h3]
            · rw [List.getElem?_eq_none (by omega),
                List.getElem?_eq_none (by rw [hlen']; omega)]
      · simp only [Vector.mk_size]
        rw [hlen']

theorem shaped_copyAssign {v rhs : Vector α} {es fs : List α}
    (hv : Shaped v es) (hr : Shaped rhs fs) :
    Shaped (Vector.copyAssign v rhs false) fs := by
  obtain ⟨k, hd, hs⟩ := hv
  obtain ⟨k', hd', hs'⟩ := hr
  have hcap : v.data_.length = es.length + k := by rw [hd, length_canon]
  rw [Vector.copyAssign, if_neg (by simp)]
  by_cases h1 : v.data_.length < rhs.size_
  · rw [if_pos h1]
    exact shaped_copyCtor ⟨k', hd', hs'⟩
  · rw [if_neg h1]
    by_cases h2 : rhs.size_ < v.size_
    · rw [if_pos h2]
      refine ⟨(es.length + k) - fs.length, ?_, by simp [hs']⟩
      simp only [Vector.mk_data]
      apply canon_ext
      · rw [length_destroySlots, length_copySlots]
        omega
      · intro i hi
        rw [slotGet_destroySlots _ _ _ _ (by rw [length_copySlots]; omega)]
        by_cases h3 : rhs.size_ ≤ i ∧ i < rhs.size_ + (v.size_ - rhs.size_)
        · rw [if_pos h3, List.getElem?_eq_none (by omega)]
        · rw [if_neg h3, slotGet_copySlots _ _ _ _ _ _ (by omega)]
          by_cases h4 : i < rhs.size_
          · rw [if_pos ⟨Nat.zero_le _, by omega⟩, Nat.zero_add, Nat.sub_zero, hd', slotGet_canon]
          · rw [if_neg (by omega), hd, slotGet_canon, List.getElem?_eq_none (by omega),
              List.getElem?_eq_none (by omega)]
    · rw [if_neg h2]
      refine ⟨(es.length + k) - fs.length, ?_, by simp [hs']⟩
      simp only [Vector.mk_data]
      apply canon_ext
      · rw [length_copySlots, length_copySlots]
        omega
      · intro i hi
        rw [slotGet_copySlots _ _ _ _ _ _ (by rw [length_copySlots]; omega)]
        by_cases h3 : v.size_ ≤ i ∧ i < v.size_ + (rhs.size_ - v.size_)
        · rw [if_pos h3]
          have : v.size_ + (i - v.size_) = i := by omega
          rw [this, hd', slotGet_canon]
        · rw [if_neg h3, slotGet_copySlots _ _ _ _ _ _ (by omega)]
          by_cases h4 : i < v.size_
          · rw [if_pos ⟨Nat.zero_le _, by omega⟩, Nat.zero_add, Nat.sub_zero, hd', slotGet_canon]
          · rw [if_neg (by omega), hd, slotGet_canon, List.getElem?_eq_none (by omega),
              List.getElem?_eq_none (by omega)]

theorem shaped_Emplace {v : Vector α} {es : List α} (h : Shaped v es) {pos : ℕ}
    (hpos : pos ≤ es.length) (x : α) :
    Shaped (Vector.Emplace v pos x) (es.take pos ++ x :: es.drop pos) := by
  obtain ⟨k, hd, hs⟩ := h
  have hcap : v.data_.length = es.length + k := by rw [hd, length_canon]
  have hlen' : (es.take pos ++ x :: es.drop pos).length = es.length + 1 := by
    rw [List.length_append, List.length_cons, List.length_take, List.length_drop]
    omega
  by_cases hp : pos = v.size_
  · rw [Vector.Emplace, if_pos hp]
    have hpe : pos = es.length := by omega
    have : es.take pos ++ x :: es.drop pos = es ++ [x] := by
      rw [hpe, List.take_length, List.drop_length]
    rw [this]
    exact shaped_EmplaceBack ⟨k, hd, hs⟩ x
  · have hplt : pos < es.length := by omega
    by_cases hfull : v.size_ = v.data_.length
    · rw [Vector.Emplace, if_neg hp, if_pos hfull]
      have hk : k = 0 := by omega
      set nc := (if v.size_ = 0 then 1 else v.size_ * 2) with hnc
      have hnc2 : es.length + 1 ≤ nc := by
        rw [hnc]; split_ifs <;> omega
      refine ⟨nc - (es.length + 1), ?_, by simp [hlen', hs]⟩
      simp only [Vector.mk_data]
      apply canon_ext
      · rw [length_copySlots, length_copySlots, List.length_set, List.length_replicate, hlen']
        omega
      · intro i hi
        rw [hlen'] at hi
        have hi' : i < nc := by omega
        rw [getElem?_insertList es pos x (by omega) i,
          slotGet_copySlots _ _ _ _ _ _
            (by rw [length_copySlots, List.length_set, List.length_replicate]; omega)]
        rcases Nat.lt_trichotomy i pos with h1 | h1 | h1
        · rw [if_neg (by omega), slotGet_copySlots _ _ _ _ _ _
              (by rw [List.length_set, List.length_replicate]; omega),
            if_pos ⟨Nat.zero_le _, by omega⟩, Nat.zero_add, Nat.sub_zero, hd, slotGet_canon,
            if_pos h1]
        · subst h1
          rw [if_neg (by omega), slotGet_copySlots _ _ _ _ _ _
              (by rw [List.length_set, List.length_replicate]; omega),
            if_neg (by omega), slotGet_set,
            if_pos ⟨rfl, by rw [List.length_replicate]; omega⟩,
            if_neg (by omega), if_pos rfl]
        · by_cases h2 : pos + 1 ≤ i ∧ i < pos + 1 + (v.size_ - pos)
          · rw [if_pos h2]
            have : pos + (i - (pos + 1)) = i - 1 := by omega
            rw [this, hd, slotGet_canon, if_neg (by omega), if_neg (by omega),
              if_pos (by omega)]
          · rw [if_neg h2, slotGet_copySlots _ _ _ _ _ _
                (by rw [List.length_set, List.length_replicate]; omega),
              if_neg (by omega), slotGet_set, if_neg (by omega), slotGet_replicate,
              if_neg (by omega), if_neg (by omega), if_neg (by omega)]
    · rw [Vector.Emplace, if_neg hp, if_neg hfull]
      have hk : 1 ≤ k := by omega
      refine ⟨k - 1, ?_, by simp [hlen', hs]⟩
      simp only [Vector.mk_data]
      apply canon_ext
      · rw [List.length_set, length_copySlots, List.length_set, hlen']
        omega
      · intro i hi
        rw [hlen'] at hi
        rw [getElem?_insertList es pos x (by omega) i, slotGet_set]
        rcases Nat.lt_trichotomy i pos with h1 | h1 | h1
        · rw [if_neg (by omega), slotGet_copySlots _ _ _ _ _ _
              (by rw [List.length_set]; omega),
            if_neg (by omega), slotGet_set, if_neg (by omega), hd, slotGet_canon,
            if_pos h1]
        · subst h1
          rw [if_pos ⟨rfl, by rw [length_copySlots, List.length_set]; omega⟩,
            if_neg (by omega), if_pos rfl]
        · rw [if_neg (by omega), if_neg (by omega), if_neg (by omega)]
          by_cases h2 : pos + 1 ≤ i ∧ i < pos + 1 + (v.size_ - 1 - pos)
          · rw [slotGet_copySlots _ _ _ _ _ _ (by rw [List.length_set]; omega), if_pos h2]
            have : pos + (i - (pos + 1)) = i - 1 := by omega
            rw [this, hd, slotGet_canon, if_pos (by omega)]
          · rw [slotGet_copySlots _ _ _ _ _ _ (by rw [List.length_set]; omega), if_neg h2,
              slotGet_set]
            by_cases h3 : i = v.size_
            · rw [if_pos ⟨h3.symm, by omega⟩, hd, slotGet_canon, if_pos (by omega)]
              have : v.size_ - 1 = i - 1 := by omega
              rw [this]
            · rw [if_neg (by omega), hd, slotGet_canon, if_neg (by omega),
                List.getElem?_eq_none (by omega)]

theorem shaped_Insert {v : Vector α} {es : List α} (h : Shaped v es) {pos : ℕ}
    (hpos : pos ≤ es.length) (x : α) :
    Shaped (Vector.Insert v pos x) (es.take pos ++ x :: es.drop pos) :=
  shaped_Emplace h hpos x

theorem shaped_Erase {v : Vector α} {es : List α} (h : Shaped v es) {pos : ℕ}
    (hpos : pos < es.length) :
    Shaped (Vector.Erase v pos) (es.eraseIdx pos) := by
  obtain ⟨k, hd, hs⟩ := h
  have hcap : v.data_.length = es.length + k := by rw [hd, length_canon]
  have hlen' : (es.eraseIdx pos).length = es.length - 1 := length_eraseList es pos hpos
  by_cases hp : pos = v.size_ - 1
  · rw [Vector.Erase, if_pos hp]
    have : es.eraseIdx pos = es.take (es.length - 1) := by
      rw [List.eraseIdx_eq_take_drop_succ]
      have hp' : pos + 1 = es.length := by omega
      rw [hp', List.drop_length, List.append_nil]
      have : pos = es.length - 1 := by omega
      rw [this]
    rw [this]
    exact shaped_PopBack ⟨k, hd, hs⟩
  · rw [Vector.Erase, if_neg hp]
    have hp2 : pos < es.length - 1 := by omega
    refine ⟨k + 1, ?_, by simp [hlen']; omega⟩
    simp only [Vector.mk_data]
    apply canon_ext
    · rw [List.length_set, length_copySlots, hlen']
      omega
    · intro i hi
      rw [hlen'] at hi
      rw [getElem?_eraseList es pos hpos i, slotGet_set]
      by_cases h1 : v.size_ - 1 = i
      · rw [if_pos ⟨h1, by rw [length_copySlots]; omega⟩, if_neg (by omega),
          List.getElem?_eq_none (by omega)]
      · rw [if_neg (by omega), slotGet_copySlots _ _ _ _ _ _ (by omega)]
        by_cases h2 : pos ≤ i ∧ i < pos + (v.size_ - 1 - pos)
        · rw [if_pos h2]
          have : pos + 1 + (i - pos) = i + 1 := by omega
          rw [this, hd, slotGet_canon, if_neg (by omega)]
        · rw [if_neg h2, hd, slotGet_canon]
          by_cases h3 : i < pos
          · rw [if_pos h3]
          · rw [if_neg h3, List.getElem?_eq_none (by omega),
              List.getElem?_eq_none (by omega)]

theorem inv_of_shaped {v : Vector α} {es : List α} (h : Shaped v es) : Inv v := by
  obtain ⟨k, hd, hs⟩ := h
  constructor
  · rw [hd, hs, length_canon]; omega
  · intro i _
    rw [hd, slotGet_canon, hs]
    constructor
    · intro hsome
      by_contra hlt
      rw [List.getElem?_eq_none (by omega)] at hsome
      simp at hsome
    · intro hlt
      rw [List.getElem?_eq_getElem hlt]
      rfl

theorem reachable_shaped [Inhabited α] {v : Vector α} (h : Reachable v) :
    ∃ es, Shaped v es := by
  induction h with
  | mkEmpty => exact ⟨[], shaped_mkEmpty⟩
  | mkSized n => exact ⟨_, shaped_mkSized n⟩
  | copyCtor _ ih =>
    obtain ⟨es, hv⟩ := ih
    exact ⟨es, shaped_copyCtor hv⟩
  | moveCtorFst _ ih =>
    obtain ⟨es, hv⟩ := ih
    exact ⟨es, shaped_moveCtor_fst hv⟩
  | moveCtorSnd _ _ => exact ⟨[], shaped_moveCtor_snd _⟩
  | copyAssign same _ _ ihv ihr =>
    obtain ⟨es, hv⟩ := ihv
    obtain ⟨fs, hr⟩ := ihr
    cases same
    · exact ⟨fs, shaped_copyAssign hv hr⟩
    · exact ⟨es, by simpa [Vector.copyAssign] using hv⟩
  | moveAssignFst _ _ _ ihr =>
    obtain ⟨fs, hr⟩ := ihr
    exact ⟨fs, shaped_moveAssign_fst hr⟩
  | moveAssignSnd _ _ ihv _ =>
    obtain ⟨es, hv⟩ := ihv
    exact ⟨es, shaped_moveAssign_snd hv⟩
  | reserve n _ ih =>
    obtain ⟨es, hv⟩ := ih
    exact ⟨es, shaped_Reserve hv n⟩
  | resize n _ ih =>
    obtain ⟨es, hv⟩ := ih
    exact ⟨_, shaped_Resize hv n⟩
  | pushBack x _ ih =>
    obtain ⟨es, hv⟩ := ih
    exact ⟨_, shaped_PushBack hv x⟩
  | emplaceBack x _ ih =>
    obtain ⟨es, hv⟩ := ih
    exact ⟨_, shaped_EmplaceBack hv x⟩
  | popBack _ _ ih =>
    obtain ⟨es, hv⟩ := ih
    exact ⟨_, shaped_PopBack hv⟩
  | emplace pos x _ hpos ih =>
    obtain ⟨es, hv⟩ := ih
    exact ⟨_, shaped_Emplace hv (by rw [← hv.size_eq]; exact hpos) x⟩
  | insert pos x _ hpos ih =>
    obtain ⟨es, hv⟩ := ih
    exact ⟨_, shaped_Insert hv (by rw [← hv.size_eq]; exact hpos) x⟩
  | erase pos _ hpos ih =>
    obtain ⟨es, hv⟩ := ih
    exact ⟨_, shaped_Erase hv (by rw [← hv.size_eq]; exact hpos)⟩
  | swapFst _ _ _ ihb =>
    obtain ⟨fs, hb⟩ := ihb
    exact ⟨fs, shaped_Swap_fst hb⟩
  | swapSnd _ _ iha _ =>
    obtain ⟨es, ha⟩ := iha
    exact ⟨es, shaped_Swap_snd ha⟩

theorem pushAll_cons (v : Vector α) (a : α) (t : List α) :
    pushAll v (a :: t) = pushAll (Vector.PushBack v a) t := rfl

theorem pushAll_shaped {v : Vector α} {es : List α} (h : Shaped v es) (l : List α) :
    Shaped (pushAll v l) (es ++ l) := by
  induction l generalizing v es with
  | nil => simpa [pushAll] using h
  | cons a t ih =>
    rw [pushAll_cons]
    have := ih (shaped_PushBack h a)
    simpa using this

theorem pushAll_capacity {v : Vector α} {es : List α} (h : Shaped v es)
    (hc : (es = [] ∧ v.Capacity = 0) ∨
      (∃ j, v.Capacity = 2 ^ j ∧ es.length ≤ v.Capacity ∧ v.Capacity < 2 * es.length))
    (l : List α) :
    (es ++ l = [] ∧ (pushAll v l).Capacity = 0) ∨
      (∃ j, (pushAll v l).Capacity = 2 ^ j ∧ (es ++ l).length ≤ (pushAll v l).Capacity ∧
        (pushAll v l).Capacity < 2 * (es ++ l).length) := by
  induction l generalizing v es with
  | nil => simpa [pushAll] using hc
  | cons a t ih =>
    rw [pushAll_cons]
    have hsz : v.size_ = es.length := h.size_eq
    have hcapeq : (Vector.PushBack v a).Capacity =
        if v.size_ = v.Capacity then (if v.size_ = 0 then 1 else v.size_ * 2)
        else v.Capacity := capacity_EmplaceBack v a
    have hc' : (es ++ [a] = [] ∧ (Vector.PushBack v a).Capacity = 0) ∨
        (∃ j, (Vector.PushBack v a).Capacity = 2 ^ j ∧
          (es ++ [a]).length ≤ (Vector.PushBack v a).Capacity ∧
          (Vector.PushBack v a).Capacity < 2 * (es ++ [a]).length) := by
      right
      rcases hc with ⟨he, h0⟩ | ⟨j, hj, hle, hlt⟩
      · refine ⟨0, ?_, ?_, ?_⟩ <;>
          rw [hcapeq, if_pos (by rw [h0, hsz, he]; rfl), if_pos (by rw [hsz, he]; rfl)] <;>
          simp [he]
      · by_cases hfull : v.size_ = v.Capacity
        · have h1 : 1 ≤ v.Capacity := by rw [hj]; exact Nat.one_le_two_pow
          refine ⟨j + 1, ?_, ?_, ?_⟩
          · rw [hcapeq, if_pos hfull, if_neg (by omega), hfull, hj, pow_succ]
          · rw [hcapeq, if_pos hfull, if_neg (by omega), List.length_append,
              List.length_singleton]
            omega
          · rw [hcapeq, if_pos hfull, if_neg (by omega), List.length_append,
              List.length_singleton]
            omega
        · refine ⟨j, ?_, ?_, ?_⟩ <;>
            rw [hcapeq, if_neg hfull] <;>
            first
            | exact hj
            | (simp [List.length_append]; omega)
    have := ih (shaped_PushBack h a) hc'
    simpa using this

theorem pow_two_between {N j : ℕ} (h1 : N ≤ 2 ^ j) (h2 : 2 ^ j < 2 * N) :
    2 ^ j = 2 ^ Nat.clog 2 N := by
  congr 1
  have ha : Nat.clog 2 N ≤ j := (Nat.le_pow_iff_clog_le (by norm_num)).mp h1
  have hb : j ≤ Nat.clog 2 N := by
    by_contra hlt
    push_neg at hlt
    have hc : Nat.clog 2 N ≤ j - 1 := by omega
    have hN2 : N ≤ 2 ^ (j - 1) := (Nat.le_pow_iff_clog_le (by norm_num)).mpr hc
    have h1j : 1 ≤ j := by omega
    have hsp : 2 ^ j = 2 * 2 ^ (j - 1) := by
      calc 2 ^ j = 2 ^ ((j - 1) + 1) := by rw [Nat.sub_add_cancel h1j]
        _ = 2 * 2 ^ (j - 1) := by rw [pow_succ]; ring
    omega
  omega

theorem uninitCopyNE_ok {bad : α → Bool} :
    ∀ {src : List α}, (∀ a ∈ src, bad a = false) →
    ∀ (dst : List (Option α)) (d : ℕ), d + src.length ≤ dst.length →
      ∃ r, uninitCopyNE bad src dst d = .ok r ∧ r.length = dst.length ∧
        ∀ i, i < dst.length →
          slotGet r i = if d ≤ i ∧ i < d + src.length then src[i - d]? else slotGet dst i := by
  intro src
  induction src with
  | nil =>
    intro _ dst d _
    refine ⟨dst, rfl, rfl, ?_⟩
    intro i _
    rw [if_neg (by simp)]
  | cons a t ih =>
    intro hgood dst d hfit
    have ha : bad a = false := hgood a (by simp)
    obtain ⟨r, hr, hrlen, hri⟩ := ih (fun x hx => hgood x (by simp [hx]))
      (dst.set d (some a)) (d + 1) (by rw [List.length_set]; simp at hfit ⊢; omega)
    refine ⟨r, ?_, by rw [hrlen, List.length_set], ?_⟩
    · rw [uninitCopyNE, if_neg (by simp [ha]), hr]
    · intro i hi
      rw [hri i (by rw [List.length_set]; exact hi)]
      by_cases h1 : d + 1 ≤ i ∧ i < d + 1 + t.length
      · rw [if_pos h1, if_pos (by simp; omega)]
        have h2 : i - d = (i - (d + 1)) + 1 := by omega
        rw [h2, List.getElem?_cons_succ]
      · rw [if_neg h1, slotGet_set]
        by_cases h2 : d = i
        · rw [if_pos ⟨h2, by omega⟩, if_pos (by simp; omega)]
          have h3 : i - d = 0 := by omega
          rw [h3, List.getElem?_cons_zero]
        · rw [if_neg (fun hcon => h2 hcon.1), if_neg (by simp; omega)]

theorem uninitCopyNE_err {bad : α → Bool} {pre : List α} (hpre : ∀ a ∈ pre, bad a = false)
    {b : α} (hb : bad b = true) (rest : List α) :
    ∀ (dst : List (Option α)) (d : ℕ),
      uninitCopyNE bad (pre ++ b :: rest) dst d = .error pre := by
  induction pre with
  | nil =>
    intro dst d
    rw [List.nil_append, uninitCopyNE, if_pos hb]
  | cons a t ih =>
    intro dst d
    have ha : bad a = false := hpre a (by simp)
    rw [List.cons_append, uninitCopyNE, if_neg (by simp [ha]),
      ih (fun x hx => hpre x (by simp [hx])) (dst.set d (some a)) (d + 1)]

/-- C9: every vector reachable by any sequence of the public operations
(construct, copy/move construct and assign, Reserve, Resize,
PushBack/EmplaceBack, PopBack, Insert/Emplace, Erase, Swap) satisfies the
invariant: `size_` never exceeds the capacity, the slots at indices
`[0, size_)` hold live constructed objects and the slots at
`[size_, capacity)` hold no live objects. -/
theorem C9_reachable_invariant [Inhabited α] {v : Vector α} (h : Reachable v) : Inv v := by
  obtain ⟨es, hv⟩ := reachable_shaped h
  exact inv_of_shaped hv

theorem C9_reachable_invariant_witness :
    Reachable (Vector.PushBack (Vector.mkEmpty : Vector ℕ) 1) ∧
      Inv (Vector.PushBack (Vector.mkEmpty : Vector ℕ) 1) :=
  ⟨Reachable.pushBack 1 Reachable.mkEmpty,
    C9_reachable_invariant (Reachable.pushBack 1 Reachable.mkEmpty)⟩

/-- C3: appending N elements to a default-constructed vector yields final
size N, the elements in append order, and final capacity the smallest value
reachable by repeated doubling starting from 1 that is ≥ N (0 when N = 0). -/
theorem C3_append_size_capacity_order (l : List α) :
    (pushList l).Size = l.length ∧ liveVals (pushList l) = l ∧
      (pushList l).Capacity = specSmallestDoubling l.length := by
  have hsh : Shaped (pushList l) l := by
    have := pushAll_shaped shaped_mkEmpty l
    simpa [pushList] using this
  refine ⟨hsh.size_eq, hsh.liveVals_eq, ?_⟩
  have hcap := pushAll_capacity shaped_mkEmpty (Or.inl ⟨rfl, rfl⟩) l
  rw [specSmallestDoubling]
  rcases hcap with ⟨he, h0⟩ | ⟨j, hj, hle, hlt⟩
  · simp only [List.nil_append] at he
    rw [if_pos (by simp [he]), pushList]
    exact h0
  · simp only [List.nil_append] at hj hle hlt
    have hle' : l.length ≤ 2 ^ j := by rw [← hj]; exact hle
    have hlt' : 2 ^ j < 2 * l.length := by rw [← hj]; exact hlt
    rw [if_neg (by omega), pushList, hj, pow_two_between hle' hlt']

/-- C5: `Reserve(n)` is a no-op (same vector) when `n ≤ capacity`;
otherwise it allocates storage of capacity exactly `n` and migrates all
live elements preserving order and size, the migration being by move
exactly when the element type's move cannot fail or the type is not
copyable (the `if constexpr` condition `migrateByMove`). -/
theorem C5_reserve {v : Vector α} {es : List α} (hv : Shaped v es) (n : ℕ) :
    (n ≤ v.Capacity → Vector.Reserve v n = v) ∧
    (v.Capacity < n →
      (Vector.Reserve v n).Capacity = n ∧ Shaped (Vector.Reserve v n) es ∧
        (Vector.Reserve v n).Size = v.Size ∧
        liveVals (Vector.Reserve v n) = liveVals v) ∧
    (∀ ntm cpa : Bool, Vector.migrateByMove ntm cpa = (ntm || !cpa)) := by
  refine ⟨?_, ?_, fun _ _ => rfl⟩
  · intro hle
    rw [Vector.Reserve, if_pos (show n ≤ v.data_.length from hle)]
  · intro hgt
    have hsh := shaped_Reserve hv n
    refine ⟨?_, hsh, ?_, ?_⟩
    · rw [capacity_Reserve, if_neg (by omega)]
    · rw [Vector.Size, Vector.Size, hsh.size_eq, hv.size_eq]
    · rw [hsh.liveVals_eq, hv.liveVals_eq]

theorem C5_reserve_witness :
    (Vector.Reserve (Vector.mk ([some 1] : List (Option ℕ)) 1) 1 =
        Vector.mk ([some 1] : List (Option ℕ)) 1) ∧
      ((Vector.Reserve (Vector.mk ([some 1] : List (Option ℕ)) 1) 3).Capacity = 3 ∧
        Shaped (Vector.Reserve (Vector.mk ([some 1] : List (Option ℕ)) 1) 3) [1] ∧
        (Vector.Reserve (Vector.mk ([some 1] : List (Option ℕ)) 1) 3).Size =
          (Vector.mk ([some 1] : List (Option ℕ)) 1).Size ∧
        liveVals (Vector.Reserve (Vector.mk ([some 1] : List (Option ℕ)) 1) 3) =
          liveVals (Vector.mk ([some 1] : List (Option ℕ)) 1)) := by
  have hv : Shaped (Vector.mk ([some 1] : List (Option ℕ)) 1) [1] := ⟨0, rfl, rfl⟩
  exact ⟨(C5_reserve hv 1).1 (by decide), (C5_reserve hv 3).2.1 (by decide)⟩

/-- C7: inserting a value at any valid position and then erasing at that
same position restores the original visible sequence (same size, same
elements in the same order); the capacity is unconstrained. -/
theorem C7_insert_erase_roundtrip {v : Vector α} {es : List α} (hv : Shaped v es)
    {pos : ℕ} (hpos : pos ≤ es.length) (x : α) :
    Shaped (Vector.Erase (Vector.Insert v pos x) pos) es ∧
      (Vector.Erase (Vector.Insert v pos x) pos).Size = v.Size ∧
      liveVals (Vector.Erase (Vector.Insert v pos x) pos) = liveVals v := by
  have h1 := shaped_Insert hv hpos x
  have hlen' : (es.take pos ++ x :: es.drop pos).length = es.length + 1 := by
    rw [List.length_append, List.length_cons, List.length_take, List.length_drop]
    omega
  have h2 := @shaped_Erase α _ _ h1 pos (by rw [hlen']; omega)
  have h3 : (es.take pos ++ x :: es.drop pos).eraseIdx pos = es := by
    apply List.ext_getElem?
    intro i
    rw [getElem?_eraseList _ pos (by rw [hlen']; omega) i,
      getElem?_insertList es pos x hpos, getElem?_insertList es pos x hpos]
    by_cases hi : i < pos
    · rw [if_pos hi, if_pos hi]
    · rw [if_neg hi, if_neg (by omega), if_neg (by omega)]
      by_cases h4 : i + 1 < es.length + 1
      · rw [if_pos h4]
        have h5 : i + 1 - 1 = i := by omega
        rw [h5]
      · rw [if_neg h4, List.getElem?_eq_none (by omega)]
  rw [h3] at h2
  refine ⟨h2, ?_, ?_⟩
  · rw [Vector.Size, Vector.Size, h2.size_eq, hv.size_eq]
  · rw [h2.liveVals_eq, hv.liveVals_eq]

theorem C7_insert_erase_roundtrip_witness :
    Shaped (Vector.Erase (Vector.Insert (Vector.mk ([some 1, some 2] : List (Option ℕ)) 2) 1 9) 1)
        [1, 2] ∧
      (Vector.Erase (Vector.Insert (Vector.mk ([some 1, some 2] : List (Option ℕ)) 2) 1 9) 1).Size =
        (Vector.mk ([some 1, some 2] : List (Option ℕ)) 2).Size ∧
      liveVals
          (Vector.Erase (Vector.Insert (Vector.mk ([some 1, some 2] : List (Option ℕ)) 2) 1 9) 1) =
        liveVals (Vector.mk ([some 1, some 2] : List (Option ℕ)) 2) := by
  have hv : Shaped (Vector.mk ([some 1, some 2] : List (Option ℕ)) 2) [1, 2] := ⟨0, rfl, rfl⟩
  exact C7_insert_erase_roundtrip hv (by decide) 9

/-- C8: for a vector of size n and m < n, resizing down to m and then back
up to n keeps the first m elements unchanged while indices [m, n) afterwards
hold default-constructed values. -/
theorem C8_resize_down_up [Inhabited α] {v : Vector α} {es : List α} (hv : Shaped v es)
    {m : ℕ} (hm : m < es.length) :
    Shaped (Vector.Resize (Vector.Resize v m) es.length)
        (es.take m ++ List.replicate (es.length - m) (default : α)) ∧
      (Vector.Resize (Vector.Resize v m) es.length).Size = es.length ∧
      liveVals (Vector.Resize (Vector.Resize v m) es.length) =
        es.take m ++ List.replicate (es.length - m) (default : α) := by
  have h1 := shaped_Resize hv m
  rw [if_pos (by omega)] at h1
  have htk : (es.take m).length = m := by rw [List.length_take]; omega
  have h2 := shaped_Resize h1 es.length
  rw [if_neg (by rw [htk]; omega), htk] at h2
  refine ⟨h2, ?_, h2.liveVals_eq⟩
  rw [Vector.Size, h2.size_eq, List.length_append, htk, List.length_replicate]
  omega

theorem C8_resize_down_up_witness :
    Shaped (Vector.Resize (Vector.Resize (Vector.mk ([some 1, some 2] : List (Option ℕ)) 2) 1) 2)
        [1, 0] ∧
      (Vector.Resize (Vector.Resize (Vector.mk ([some 1, some 2] : List (Option ℕ)) 2) 1) 2).Size =
        2 ∧
      liveVals
          (Vector.Resize (Vector.Resize (Vector.mk ([some 1, some 2] : List (Option ℕ)) 2) 1) 2) =
        [1, 0] := by
  have hv : Shaped (Vector.mk ([some 1, some 2] : List (Option ℕ)) 2) [1, 2] := ⟨0, rfl, rfl⟩
  exact C8_resize_down_up hv (by decide)

/-- C10: copy-assigning a vector to itself (the `this != &rhs` address
check fires, so the body is skipped) leaves it completely unchanged — same
size, same capacity, same elements — and cannot throw. -/
theorem C10_self_copy_assign (bad : α → Bool) (v : Vector α) :
    Vector.copyAssign v v true = v ∧ copyAssignE bad v v true = .ok v :=
  ⟨rfl, rfl⟩

/-- C2 as stated is false on the code: move-assignment is a swap, so the
source is left holding the destination's prior elements, not empty.
Concretely, after `v = std::move(w)` with `v = [1]` and `w = [2, 3]`, the
source `w` has size 1, not 0. -/
theorem C2_moveAssign_source_not_empty :
    (Vector.moveAssign (Vector.mk ([some 1] : List (Option ℕ)) 1)
        (Vector.mk [some 2, some 3] 2)).2.size_ ≠ 0 := by
  decide

/-- C2 amended: after a move-construction the destination holds exactly the
source's prior elements in their prior order and the source is left empty
(size 0); after a move-assignment (implemented as a swap) the destination
holds exactly the source's prior elements in their prior order while the
source receives the destination's prior elements — so the source ends empty
exactly when the destination was empty before the call. -/
theorem C2_move_transfers {v rhs : Vector α} {es fs : List α}
    (hv : Shaped v es) (hr : Shaped rhs fs) :
    (liveVals (Vector.moveCtor rhs).1 = fs ∧ (Vector.moveCtor rhs).2.size_ = 0) ∧
      (liveVals (Vector.moveAssign v rhs).1 = fs ∧
        liveVals (Vector.moveAssign v rhs).2 = es ∧
        ((Vector.moveAssign v rhs).2.size_ = 0 ↔ v.size_ = 0)) :=
  ⟨⟨(shaped_moveCtor_fst hr).liveVals_eq, rfl⟩,
    (shaped_moveAssign_fst hr).liveVals_eq, (shaped_moveAssign_snd hv).liveVals_eq, Iff.rfl⟩

theorem C2_move_transfers_witness :
    (liveVals (Vector.moveCtor (Vector.mk ([some 2, some 3] : List (Option ℕ)) 2)).1 = [2, 3] ∧
      (Vector.moveCtor (Vector.mk ([some 2, some 3] : List (Option ℕ)) 2)).2.size_ = 0) ∧
      (liveVals
          (Vector.moveAssign (Vector.mk ([some 1] : List (Option ℕ)) 1)
            (Vector.mk [some 2, some 3] 2)).1 = [2, 3] ∧
        liveVals
          (Vector.moveAssign (Vector.mk ([some 1] : List (Option ℕ)) 1)
            (Vector.mk [some 2, some 3] 2)).2 = [1] ∧
        ((Vector.moveAssign (Vector.mk ([some 1] : List (Option ℕ)) 1)
              (Vector.mk [some 2, some 3] 2)).2.size_ = 0 ↔
          (Vector.mk ([some 1] : List (Option ℕ)) 1).size_ = 0)) := by
  have hv : Shaped (Vector.mk ([some 1] : List (Option ℕ)) 1) [1] := ⟨0, rfl, rfl⟩
  have hr : Shaped (Vector.mk ([some 2, some 3] : List (Option ℕ)) 2) [2, 3] := ⟨0, rfl, rfl⟩
  exact C2_move_transfers hv hr

/-- C1 is violated by the code: on `EmplaceBack`'s growth path with copy
migration, when the migrating copy throws after the new element was already
constructed in the new buffer, nothing destroys that new element — the
function has no try/catch (unlike `Emplace`), and the `RawMemory`
destructor only frees the raw block.  At the failing input — a vector of
size 1 = capacity 1 whose single element's copy constructor throws, with
`EmplaceBack(7)` — the outcome after unwinding leaves the old vector
unchanged, destroys no copies and releases the new block, but the
destructor of the newly constructed element `7` never runs (it is leaked),
whereas the claim requires it to be destroyed. -/
theorem C1_emplaceBack_growth_leaks_new_element :
    EmplaceBackE (fun a => a == 5) false (Vector.mk ([some 5] : List (Option ℕ)) 1) 7 =
      .error ⟨Vector.mk [some 5] 1, [], [7], false⟩ :=
  rfl

/-- C4: copy-assignment where `rhs`'s size exceeds the target's capacity
builds a full temporary copy of `rhs` and swaps it in: on success the
target holds exactly `rhs`'s elements in order; if any element copy throws,
the target is left exactly as it was before the call (strong guarantee),
the partial copies are destroyed, nothing is leaked and the new block is
released. -/
theorem C4_copy_assign_growth {bad : α → Bool} {v rhs : Vector α} {es fs : List α}
    (hv : Shaped v es) (hr : Shaped rhs fs) (hgrow : v.Capacity < rhs.Size) :
    ((∀ a ∈ fs, bad a = false) →
      ∃ w, copyAssignE bad v rhs false = .ok w ∧ Shaped w fs ∧ liveVals w = fs) ∧
    (∀ pre b rest, fs = pre ++ b :: rest → (∀ a ∈ pre, bad a = false) → bad b = true →
      copyAssignE bad v rhs false = .error ⟨v, pre, [], false⟩) := by
  have hlv : liveVals rhs = fs := hr.liveVals_eq
  have hsz : rhs.size_ = fs.length := hr.size_eq
  constructor
  · intro hgood
    obtain ⟨r, hre, hrlen, hri⟩ := uninitCopyNE_ok hgood
      (List.replicate rhs.size_ none) 0 (by rw [List.length_replicate]; omega)
    have hshaped : Shaped (Vector.mk r rhs.size_) fs := by
      refine ⟨0, ?_, by simp [hsz]⟩
      simp only [Vector.mk_data]
      apply canon_ext
      · rw [hrlen, List.length_replicate]
        omega
      · intro i hi
        rw [Nat.add_zero] at hi
        rw [hri i (by rw [List.length_replicate]; omega), if_pos ⟨Nat.zero_le _, by omega⟩,
          Nat.sub_zero]
    refine ⟨Vector.mk r rhs.size_, ?_, hshaped, hshaped.liveVals_eq⟩
    rw [copyAssignE, if_neg (by simp), if_pos (show v.data_.length < rhs.size_ from hgrow),
      copyCtorE, hlv, hre]
  · intro pre b rest hsplit hpre hb
    rw [copyAssignE, if_neg (by simp), if_pos (show v.data_.length < rhs.size_ from hgrow),
      copyCtorE, hlv, hsplit, uninitCopyNE_err hpre hb rest]

theorem C4_copy_assign_growth_witness :
    (∃ w, copyAssignE (fun _ => false) (Vector.mk ([] : List (Option ℕ)) 0)
        (Vector.mk [some 1, some 2] 2) false = .ok w ∧ Shaped w [1, 2] ∧
        liveVals w = [1, 2]) ∧
      copyAssignE (fun a => a == 2) (Vector.mk ([] : List (Option ℕ)) 0)
        (Vector.mk [some 1, some 2] 2) false =
        .error ⟨Vector.mk ([] : List (Option ℕ)) 0, [1], [], false⟩ := by
  have hv : Shaped (Vector.mk ([] : List (Option ℕ)) 0) [] := ⟨0, rfl, rfl⟩
  have hr : Shaped (Vector.mk ([some 1, some 2] : List (Option ℕ)) 2) [1, 2] := ⟨0, rfl, rfl⟩
  have hsplit : ([1, 2] : List ℕ) = [1] ++ 2 :: [] := rfl
  exact ⟨(C4_copy_assign_growth hv hr (by decide)).1 (by decide),
    (C4_copy_assign_growth hv hr (by decide)).2 [1] 2 [] hsplit (by decide) (by decide)⟩

/-- C6: `Emplace` at a strictly interior position of a full vector, growth
path with copy migration: a partial failure rolls back per affected
sub-range.  If copying the prefix throws at its first bad element, exactly
the prefix copies made so far and the constructed new element are
destroyed; if copying the suffix throws, the partial suffix copies, the
already-placed prefix copies and the new element are destroyed.  In both
cases nothing is leaked, the new block is released and the old vector with
all its elements is untouched. -/
theorem C6_emplace_growth_rollback {bad : α → Bool} {v : Vector α} {es pre rest : List α}
    {b : α} {pos : ℕ} (x : α) (hv : Shaped v es) (hfull : v.size_ = v.data_.length)
    (hpos0 : 0 < pos) (hpos : pos < es.length)
    (hsplit : es = pre ++ b :: rest) (hpre : ∀ a ∈ pre, bad a = false) (hb : bad b = true) :
    EmplaceE bad false v pos x =
      if pre.length < pos then .error ⟨v, pre ++ [x], [], false⟩
      else .error ⟨v, pre.drop pos ++ es.take pos ++ [x], [], false⟩ := by
  have hszeq : v.size_ = es.length := hv.size_eq
  have hlv : liveVals v = es := hv.liveVals_eq
  rw [EmplaceE, if_neg (show ¬pos = v.size_ by omega), if_pos hfull, if_neg (by simp), hlv]
  by_cases hk : pre.length < pos
  · rw [if_pos hk]
    have htake : es.take pos = pre ++ b :: rest.take (pos - pre.length - 1) := by
      rw [hsplit, List.take_append_eq_append_take, List.take_of_length_le (by omega)]
      congr 1
      set q := pos - pre.length - 1 with hq
      have h1 : pos - pre.length = q + 1 := by omega
      rw [h1, List.take_succ_cons]
    rw [htake, uninitCopyNE_err hpre hb _]
  · rw [if_neg hk]
    push_neg at hk
    have htake2 : es.take pos = pre.take pos := by
      rw [hsplit, List.take_append_eq_append_take, Nat.sub_eq_zero_of_le hk, List.take_zero,
        List.append_nil]
    have hdrop : es.drop pos = pre.drop pos ++ b :: rest := by
      rw [hsplit, List.drop_append_eq_append_drop, Nat.sub_eq_zero_of_le hk, List.drop_zero]
    rw [htake2, hdrop]
    have hgood2 : ∀ a ∈ pre.take pos, bad a = false := fun a ha =>
      hpre a (List.mem_of_mem_take ha)
    obtain ⟨nd1, hnd1, _, _⟩ := uninitCopyNE_ok hgood2
      ((List.replicate (if v.size_ = 0 then 1 else v.size_ * 2) (none : Option α)).set
        pos (some x)) 0
      (by
        rw [List.length_set, List.length_replicate, List.length_take]
        split_ifs <;> omega)
    have hpre2 : ∀ a ∈ pre.drop pos, bad a = false := fun a ha =>
      hpre a (List.mem_of_mem_drop ha)
    rw [hnd1]
    simp only [uninitCopyNE_err hpre2 hb rest]

theorem C6_emplace_growth_rollback_witness :
    EmplaceE (fun a => a == 2) false (Vector.mk ([some 1, some 2] : List (Option ℕ)) 2) 1 9 =
      .error ⟨Vector.mk [some 1, some 2] 2, [1, 9], [], false⟩ := by
  have hv : Shaped (Vector.mk ([some 1, some 2] : List (Option ℕ)) 2) [1, 2] := ⟨0, rfl, rfl⟩
  have hsplit : ([1, 2] : List ℕ) = [1] ++ 2 :: [] := rfl
  have h := @C6_emplace_growth_rollback ℕ (fun a => a == 2)
    (Vector.mk [some 1, some 2] 2) [1, 2] [1] [] 2 1 9 hv rfl (by decide) (by decide) hsplit
    (by decide) (by decide)
  rw [h]
  rfl

end AdvVec
